import Mathlib

/-!
Shallow embedding of `src/pintos/devices/timer.c` (PintOS alarm-clock timer).

State of the module: the tick counter `ticks` (C `int64_t`, modelled as `Int`),
the ordered `sleep_list` of sleeping threads (each carrying its `wake_tick`
field, as in `struct thread`), and the calibration scalar `loops_per_tick`
(C `unsigned`, modelled as `Nat` with arithmetic reduced mod `2 ^ 32` where
the C code can wrap).

Thread-versus-interrupt concurrency is modelled as an interleaving of atomic
operations (`Op`) on the shared state: each public entry point of timer.c is
one operation, and `run` executes an arbitrary interleaving.  C assertion
failures (`ASSERT`) are modelled as `Option.none`.  C `int64_t` division is
truncation toward zero, i.e. `Int.tdiv` / `Int.tmod`.
-/

namespace Timer

/-- One sleeping thread on `sleep_list`: the thread identity plus the
`wake_tick` field that `timer_sleep` stores into `struct thread`. -/
structure SleepEntry where
  tid : Nat
  wake_tick : Int
deriving DecidableEq, Repr

/-- The comparison `wake_less` from timer.c: orders two sleepers by their
`wake_tick` fields, strictly. -/
def wake_less (a b : SleepEntry) : Bool :=
  a.wake_tick < b.wake_tick

/-- PintOS `list_insert_ordered`: inserts `e` immediately before the first
element `x` with `wake_less e x`; among equal `wake_tick` values the new
element therefore goes after all existing ones. -/
def list_insert_ordered (e : SleepEntry) : List SleepEntry → List SleepEntry
  | [] => [e]
  | x :: xs => if wake_less e x then e :: x :: xs else x :: list_insert_ordered e xs

/-- The module state of timer.c: the static variables `ticks`, `sleep_list`
and `loops_per_tick`. -/
structure State where
  ticks : Int
  sleep_list : List SleepEntry
  loops_per_tick : Nat
deriving DecidableEq, Repr

/-- `timer_ticks`: reads the tick counter (the interrupt masking around the
read only guards atomicity, which the atomic-step model gives for free). -/
def timer_ticks (st : State) : Int :=
  st.ticks

/-- `timer_elapsed`: ticks elapsed since `t0`, a value previously returned by
`timer_ticks`. -/
def timer_elapsed (st : State) (t0 : Int) : Int :=
  timer_ticks st - t0

/-- `timer_sleep` from timer.c.  `intrOn` is the interrupt level of the
caller (`intr_get_level () == INTR_ON`), `tid` the current thread, `n` the
requested duration in ticks.  Returns `none` on `ASSERT` failure, otherwise
the new state and whether the thread blocked.  For positive `n` it stores
`wake_tick = timer_ticks () + n` and inserts the thread into `sleep_list`
with `list_insert_ordered` under `wake_less`. -/
def timer_sleep (intrOn : Bool) (tid : Nat) (n : Int) (st : State) :
    Option (State × Bool) :=
  if n ≤ 0 then some (st, false)
  else if intrOn = false then none
  else
    some ({ st with
              sleep_list := list_insert_ordered ⟨tid, st.ticks + n⟩ st.sleep_list },
          true)

/-- The drain loop of `timer_interrupt`: pops entries off the front of the
sleep list while the front entry's `wake_tick` is at most `now`, returning
the popped (unblocked) entries in pop order together with the remaining
list. -/
def drain (now : Int) : List SleepEntry → List SleepEntry × List SleepEntry
  | [] => ([], [])
  | x :: xs =>
    if x.wake_tick ≤ now then
      ((x :: (drain now xs).1), (drain now xs).2)
    else ([], x :: xs)

/-- The visible actions of one run of `timer_interrupt`, in program order:
the `ticks++` increment, the single `thread_tick ()` call, then one
`thread_unblock` per drained sleeper. -/
inductive IntrEvent where
  | tickIncr
  | schedTick
  | unblock (tid : Nat)
deriving DecidableEq, Repr

/-- `timer_interrupt` from timer.c: increments `ticks`, calls
`thread_tick ()`, then unblocks every sleeper at the front of `sleep_list`
whose `wake_tick` is at most the incremented counter (`now`), stopping at
the first entry still in the future.  Returns the new state and the event
sequence in the order the code performs it. -/
def timer_interrupt (st : State) : State × List IntrEvent :=
  let now := st.ticks + 1
  let p := drain now st.sleep_list
  ({ st with ticks := now, sleep_list := p.2 },
   IntrEvent.tickIncr :: IntrEvent.schedTick ::
     p.1.map fun e => IntrEvent.unblock e.tid)

/-- `busy_wait` from timer.c runs `while (loops-- > 0) barrier ();`: the
number of loop-body iterations it performs, which is `loops` when `loops`
is nonnegative and `0` otherwise. -/
def busy_wait_iters (loops : Int) : Nat :=
  loops.toNat

/-- How a call to `real_time_sleep` consumed its duration: by delegating to
`timer_sleep t` or by calling `busy_wait loops`. -/
inductive RTAction where
  | slept (t : Int)
  | busyWaited (loops : Int)
deriving DecidableEq, Repr

/-- `real_time_sleep` from timer.c, parameterised by the build-time constant
`TIMER_FREQ` (`freq`).  Converts `num / denom` seconds into
`num * freq / denom` ticks with C truncating division; asserts interrupts
are on; if the tick count is positive delegates to `timer_sleep`, otherwise
asserts `denom % 1000 == 0` and busy-waits
`loops_per_tick * num / 1000 * freq / (denom / 1000)` loops, evaluated left
to right. -/
def real_time_sleep (freq : Int) (intrOn : Bool) (tid : Nat)
    (num denom : Int) (st : State) : Option (State × RTAction) :=
  if intrOn = false then none
  else if 0 < Int.tdiv (num * freq) denom then
    (timer_sleep intrOn tid (Int.tdiv (num * freq) denom) st).map
      fun p => (p.1, RTAction.slept (Int.tdiv (num * freq) denom))
  else if Int.tmod denom 1000 = 0 then
    some (st, RTAction.busyWaited
      (Int.tdiv (Int.tdiv ((st.loops_per_tick : Int) * num) 1000 * freq)
        (Int.tdiv denom 1000)))
  else none

/-- `timer_msleep`: `real_time_sleep (ms, 1000)`. -/
def timer_msleep (freq : Int) (intrOn : Bool) (tid : Nat) (ms : Int)
    (st : State) : Option (State × RTAction) :=
  real_time_sleep freq intrOn tid ms 1000 st

/-- `timer_usleep`: `real_time_sleep (us, 1000 * 1000)`. -/
def timer_usleep (freq : Int) (intrOn : Bool) (tid : Nat) (us : Int)
    (st : State) : Option (State × RTAction) :=
  real_time_sleep freq intrOn tid us (1000 * 1000) st

/-- `timer_nsleep`: `real_time_sleep (ns, 1000 * 1000 * 1000)`. -/
def timer_nsleep (freq : Int) (intrOn : Bool) (tid : Nat) (ns : Int)
    (st : State) : Option (State × RTAction) :=
  real_time_sleep freq intrOn tid ns (1000 * 1000 * 1000) st

/-- The doubling loop of `timer_calibrate`, with `too_many_loops` abstracted
as the oracle `tml` (its result depends on real time, not on module state).
`loops_per_tick` is C `unsigned`, so the left shift wraps mod `2 ^ 32`;
the `ASSERT (loops_per_tick != 0)` after the shift is `none`.  The loop
terminates well within the `fuel` bound used below because the value doubles
from `2 ^ 10` until the oracle answers true or the assert fires. -/
def calibDouble (tml : Nat → Bool) : Nat → Nat → Option Nat
  | 0, _ => none
  | fuel + 1, l =>
    if tml ((l <<< 1) % 2 ^ 32) then some l
    else if (l <<< 1) % 2 ^ 32 = 0 then none
    else calibDouble tml fuel ((l <<< 1) % 2 ^ 32)

/-- The refinement loop of `timer_calibrate`:
`for (test_bit = high_bit >> 1; test_bit != high_bit >> 10; test_bit >>= 1)`
accumulating `test_bit` into the running value whenever
`too_many_loops (high_bit | test_bit)` is false. -/
def calibRefine (tml : Nat → Bool) (high_bit stop : Nat) :
    Nat → Nat → Nat → Nat
  | 0, _, l => l
  | fuel + 1, test_bit, l =>
    if test_bit = stop then l
    else calibRefine tml high_bit stop fuel (test_bit >>> 1)
      (if tml (high_bit ||| test_bit) then l else l ||| test_bit)

/-- `timer_calibrate` from timer.c: starts `loops_per_tick` at `1 << 10`,
runs the doubling loop, then refines the bits below the leading bit.
Returns `none` if the doubling loop's `ASSERT` fires. -/
def timer_calibrate (tml : Nat → Bool) : Option Nat :=
  (calibDouble tml 32 (1 <<< 10)).map fun high_bit =>
    calibRefine tml high_bit (high_bit >>> 10) 32 (high_bit >>> 1) high_bit

/-- One atomic operation on the shared timer state: an interleaving of these
models the thread/interrupt concurrency of the module. -/
inductive Op where
  | sleep (intrOn : Bool) (tid : Nat) (n : Int)
  | interrupt
  | msleep (freq : Int) (intrOn : Bool) (tid : Nat) (ms : Int)
  | usleep (freq : Int) (intrOn : Bool) (tid : Nat) (us : Int)
  | nsleep (freq : Int) (intrOn : Bool) (tid : Nat) (ns : Int)
  | calibrate (tml : Nat → Bool)
  | readTicks
  | readElapsed (t0 : Int)
  | printStats

/-- The effect of one operation on the module state, together with the wake
log of the step: each sleeper unblocked by `timer_interrupt` is recorded
with the value of the tick counter at the moment it is unblocked.  `none`
models an `ASSERT` failure. -/
def Op.effect : Op → State → Option (State × List (Int × SleepEntry))
  | .sleep intrOn tid n, st =>
      (timer_sleep intrOn tid n st).map fun p => (p.1, [])
  | .interrupt, st =>
      some ((timer_interrupt st).1,
        (drain (st.ticks + 1) st.sleep_list).1.map fun e => (st.ticks + 1, e))
  | .msleep freq intrOn tid ms, st =>
      (timer_msleep freq intrOn tid ms st).map fun p => (p.1, [])
  | .usleep freq intrOn tid us, st =>
      (timer_usleep freq intrOn tid us st).map fun p => (p.1, [])
  | .nsleep freq intrOn tid ns, st =>
      (timer_nsleep freq intrOn tid ns st).map fun p => (p.1, [])
  | .calibrate tml, st =>
      (timer_calibrate tml).map fun l => ({ st with loops_per_tick := l }, [])
  | .readTicks, st => some (st, [])
  | .readElapsed _, st => some (st, [])
  | .printStats, st => some (st, [])

/-- Runs an interleaving of operations from `st`, collecting the wake logs.
An assertion failure (kernel panic) freezes the state. -/
def run (st : State) : List Op → State × List (Int × SleepEntry)
  | [] => (st, [])
  | op :: ops =>
    match Op.effect op st with
    | none => (st, [])
    | some (st', log) =>
      let p := run st' ops
      (p.1, log ++ p.2)

/-- The sleep list sorted by ascending `wake_tick`. -/
def SortedByWake (l : List SleepEntry) : Prop :=
  l.Pairwise fun a b => a.wake_tick ≤ b.wake_tick

instance : DecidablePred SortedByWake := fun l =>
  inferInstanceAs (Decidable (l.Pairwise _))

theorem wake_less_iff {a b : SleepEntry} :
    wake_less a b = true ↔ a.wake_tick < b.wake_tick := by
  simp [wake_less]

theorem drain_eq (now : Int) (l : List SleepEntry) :
    drain now l = (l.takeWhile fun e => decide (e.wake_tick ≤ now),
                   l.dropWhile fun e => decide (e.wake_tick ≤ now)) := by
  induction l with
  | nil => rfl
  | cons x xs ih =>
    by_cases h : x.wake_tick ≤ now
    · simp [drain, h, List.takeWhile_cons, List.dropWhile_cons, ih]
    · simp [drain, h, List.takeWhile_cons, List.dropWhile_cons]

theorem drain_woken_le {now : Int} {l : List SleepEntry} {e : SleepEntry}
    (h : e ∈ (drain now l).1) : e.wake_tick ≤ now := by
  rw [drain_eq] at h
  simpa using List.mem_takeWhile_imp h

theorem mem_list_insert_ordered {y e : SleepEntry} {l : List SleepEntry} :
    y ∈ list_insert_ordered e l ↔ y = e ∨ y ∈ l := by
  induction l with
  | nil => simp [list_insert_ordered]
  | cons x xs ih =>
    by_cases h : wake_less e x
    · simp only [list_insert_ordered, if_pos h, List.mem_cons]
    · simp only [list_insert_ordered, if_neg h, List.mem_cons, ih]
      tauto

theorem sorted_list_insert_ordered {e : SleepEntry} {l : List SleepEntry}
    (h : SortedByWake l) : SortedByWake (list_insert_ordered e l) := by
  induction l with
  | nil =>
    simp [list_insert_ordered, SortedByWake]
  | cons x xs ih =>
    rw [SortedByWake, List.pairwise_cons] at h
    obtain ⟨hx, hxs⟩ := h
    by_cases hc : wake_less e x
    · rw [list_insert_ordered, if_pos hc]
      rw [wake_less_iff] at hc
      refine List.pairwise_cons.mpr ⟨?_, List.pairwise_cons.mpr ⟨hx, hxs⟩⟩
      intro y hy
      rcases List.mem_cons.mp hy with rfl | hy
      · exact le_of_lt hc
      · exact le_of_lt (lt_of_lt_of_le hc (hx y hy))
    · rw [list_insert_ordered, if_neg hc]
      have hxe : x.wake_tick ≤ e.wake_tick :=
        le_of_not_lt fun hlt => hc (wake_less_iff.mpr hlt)
      refine List.pairwise_cons.mpr ⟨?_, ih hxs⟩
      intro y hy
      rcases mem_list_insert_ordered.mp hy with rfl | hy
      · exact hxe
      · exact hx y hy

theorem list_insert_ordered_eq (e : SleepEntry) (l : List SleepEntry) :
    list_insert_ordered e l =
      (l.takeWhile fun x => !wake_less e x) ++
        e :: (l.dropWhile fun x => !wake_less e x) := by
  induction l with
  | nil => rfl
  | cons x xs ih =>
    by_cases h : wake_less e x
    · simp [list_insert_ordered, h, List.takeWhile_cons, List.dropWhile_cons]
    · simp [list_insert_ordered, h, List.takeWhile_cons, List.dropWhile_cons, ih]

theorem dropWhile_not_wake_less_gt {e : SleepEntry} :
    ∀ {l : List SleepEntry}, SortedByWake l →
      ∀ x ∈ l.dropWhile fun y => !wake_less e y, e.wake_tick < x.wake_tick := by
  intro l
  induction l with
  | nil => intro _ x hx; simp at hx
  | cons a as ih =>
    intro hs x hx
    rw [SortedByWake, List.pairwise_cons] at hs
    obtain ⟨ha, has⟩ := hs
    by_cases h : wake_less e a
    · rw [List.dropWhile_cons] at hx
      simp [h] at hx
      rw [wake_less_iff] at h
      rcases hx with rfl | hx
      · exact h
      · exact lt_of_lt_of_le h (ha x hx)
    · rw [List.dropWhile_cons] at hx
      simp [h] at hx
      exact ih has x hx

theorem list_insert_ordered_stable {e : SleepEntry} {l : List SleepEntry}
    (h : SortedByWake l) :
    ∃ l₁ l₂, l = l₁ ++ l₂ ∧
      list_insert_ordered e l = l₁ ++ e :: l₂ ∧
      (∀ x ∈ l₁, x.wake_tick ≤ e.wake_tick) ∧
      (∀ x ∈ l₂, e.wake_tick < x.wake_tick) := by
  refine ⟨l.takeWhile fun x => !wake_less e x, l.dropWhile fun x => !wake_less e x,
    (List.takeWhile_append_dropWhile _ _).symm, list_insert_ordered_eq e l, ?_, ?_⟩
  · intro x hx
    have hp := List.mem_takeWhile_imp hx
    simp only [Bool.not_eq_true'] at hp
    exact le_of_not_lt fun hlt => by simp [wake_less_iff.mpr hlt] at hp
  · exact dropWhile_not_wake_less_gt h

/-- Claim C6: for every `n ≤ 0`, `timer_sleep n` returns immediately with the
whole module state unchanged, does not block the caller, and is not an
error (no assertion is reached). -/
theorem timer_sleep_nonpositive_noop (intrOn : Bool) (tid : Nat) (n : Int)
    (st : State) (h : n ≤ 0) : timer_sleep intrOn tid n st = some (st, false) := by
  simp [timer_sleep, h]

theorem timer_sleep_nonpositive_noop_witness :
    timer_sleep false 1 0 ⟨0, [], 0⟩ = some (⟨0, [], 0⟩, false) ∧
    timer_sleep true 2 (-5) ⟨7, [⟨1, 9⟩], 0⟩ = some (⟨7, [⟨1, 9⟩], 0⟩, false) :=
  ⟨timer_sleep_nonpositive_noop false 1 0 ⟨0, [], 0⟩ (by decide),
   timer_sleep_nonpositive_noop true 2 (-5) ⟨7, [⟨1, 9⟩], 0⟩ (by decide)⟩

/-- Claim C2: each run of the interrupt handler unblocks exactly the entries
at the front of the sleep list whose `wake_tick` is at most the tick count
observed after the increment (a `takeWhile` prefix, removed in FIFO order),
stops at the first future entry and leaves all later entries queued (the
`dropWhile` suffix); with queued deadlines `[5, 5, 9]` a tick firing at 5
unblocks exactly the first two entries in order, and a tick firing at 9
unblocks the last. -/
theorem timer_interrupt_drains_due_head :
    (∀ (now : Int) (l : List SleepEntry),
      drain now l = (l.takeWhile fun e => decide (e.wake_tick ≤ now),
                     l.dropWhile fun e => decide (e.wake_tick ≤ now))) ∧
    timer_interrupt ⟨4, [⟨1, 5⟩, ⟨2, 5⟩, ⟨3, 9⟩], 0⟩ =
      (⟨5, [⟨3, 9⟩], 0⟩,
       [IntrEvent.tickIncr, IntrEvent.schedTick,
        IntrEvent.unblock 1, IntrEvent.unblock 2]) ∧
    timer_interrupt ⟨8, [⟨3, 9⟩], 0⟩ =
      (⟨9, [], 0⟩,
       [IntrEvent.tickIncr, IntrEvent.schedTick, IntrEvent.unblock 3]) :=
  ⟨drain_eq, by decide, by decide⟩

theorem timer_sleep_cases {intrOn : Bool} {tid : Nat} {n : Int} {st st' : State}
    {b : Bool} (h : timer_sleep intrOn tid n st = some (st', b)) :
    st'.ticks = st.ticks ∧ st'.loops_per_tick = st.loops_per_tick ∧
      (st'.sleep_list = st.sleep_list ∨
       ∃ e, st'.sleep_list = list_insert_ordered e st.sleep_list) := by
  unfold timer_sleep at h
  split at h
  · simp only [Option.some.injEq, Prod.mk.injEq] at h
    obtain ⟨rfl, -⟩ := h
    exact ⟨rfl, rfl, Or.inl rfl⟩
  · split at h
    · exact absurd h (by simp)
    · simp only [Option.some.injEq, Prod.mk.injEq] at h
      obtain ⟨rfl, -⟩ := h
      exact ⟨rfl, rfl, Or.inr ⟨_, rfl⟩⟩

theorem real_time_sleep_cases {freq : Int} {intrOn : Bool} {tid : Nat}
    {num denom : Int} {st st' : State} {a : RTAction}
    (h : real_time_sleep freq intrOn tid num denom st = some (st', a)) :
    st'.ticks = st.ticks ∧ st'.loops_per_tick = st.loops_per_tick ∧
      (st'.sleep_list = st.sleep_list ∨
       ∃ e, st'.sleep_list = list_insert_ordered e st.sleep_list) := by
  unfold real_time_sleep at h
  split at h
  · exact absurd h (by simp)
  · split at h
    · rw [Option.map_eq_some'] at h
      obtain ⟨⟨ps, pb⟩, hp, hfp⟩ := h
      simp only [Prod.mk.injEq] at hfp
      obtain ⟨rfl, -⟩ := hfp
      exact timer_sleep_cases hp
    · split at h
      · simp only [Option.some.injEq, Prod.mk.injEq] at h
        obtain ⟨rfl, -⟩ := h
        exact ⟨rfl, rfl, Or.inl rfl⟩
      · exact absurd h (by simp)

theorem sorted_drain_rest {now : Int} {l : List SleepEntry}
    (h : SortedByWake l) : SortedByWake (drain now l).2 := by
  rw [drain_eq]
  exact h.sublist (List.dropWhile_sublist _)

theorem effect_step {op : Op} {st st' : State} {log : List (Int × SleepEntry)}
    (h : Op.effect op st = some (st', log)) :
    st.ticks ≤ st'.ticks ∧
      (SortedByWake st.sleep_list → SortedByWake st'.sleep_list) ∧
      (∀ p ∈ log, p.2.wake_tick ≤ p.1) := by
  cases op with
  | sleep intrOn tid n =>
    simp only [Op.effect, Option.map_eq_some'] at h
    obtain ⟨⟨ps, pb⟩, hp, hfp⟩ := h
    simp only [Prod.mk.injEq] at hfp
    obtain ⟨rfl, rfl⟩ := hfp
    obtain ⟨h1, -, h3⟩ := timer_sleep_cases hp
    refine ⟨le_of_eq h1.symm, ?_, by simp⟩
    rcases h3 with h3 | ⟨e, h3⟩
    · rw [h3]; exact id
    · rw [h3]; exact sorted_list_insert_ordered
  | interrupt =>
    simp only [Op.effect, Option.some.injEq, Prod.mk.injEq] at h
    obtain ⟨rfl, rfl⟩ := h
    refine ⟨by simp [timer_interrupt], ?_, ?_⟩
    · intro hs
      simpa [timer_interrupt] using @sorted_drain_rest (st.ticks + 1) st.sleep_list hs
    · intro p hp
      simp only [List.mem_map] at hp
      obtain ⟨e, he, rfl⟩ := hp
      exact drain_woken_le he
  | msleep freq intrOn tid ms =>
    simp only [Op.effect, Option.map_eq_some'] at h
    obtain ⟨⟨ps, pa⟩, hp, hfp⟩ := h
    simp only [Prod.mk.injEq] at hfp
    obtain ⟨rfl, rfl⟩ := hfp
    obtain ⟨h1, -, h3⟩ := real_time_sleep_cases hp
    refine ⟨le_of_eq h1.symm, ?_, by simp⟩
    rcases h3 with h3 | ⟨e, h3⟩
    · rw [h3]; exact id
    · rw [h3]; exact sorted_list_insert_ordered
  | usleep freq intrOn tid us =>
    simp only [Op.effect, Option.map_eq_some'] at h
    obtain ⟨⟨ps, pa⟩, hp, hfp⟩ := h
    simp only [Prod.mk.injEq] at hfp
    obtain ⟨rfl, rfl⟩ := hfp
    obtain ⟨h1, -, h3⟩ := real_time_sleep_cases hp
    refine ⟨le_of_eq h1.symm, ?_, by simp⟩
    rcases h3 with h3 | ⟨e, h3⟩
    · rw [h3]; exact id
    · rw [h3]; exact sorted_list_insert_ordered
  | nsleep freq intrOn tid ns =>
    simp only [Op.effect, Option.map_eq_some'] at h
    obtain ⟨⟨ps, pa⟩, hp, hfp⟩ := h
    simp only [Prod.mk.injEq] at hfp
    obtain ⟨rfl, rfl⟩ := hfp
    obtain ⟨h1, -, h3⟩ := real_time_sleep_cases hp
    refine ⟨le_of_eq h1.symm, ?_, by simp⟩
    rcases h3 with h3 | ⟨e, h3⟩
    · rw [h3]; exact id
    · rw [h3]; exact sorted_list_insert_ordered
  | calibrate tml =>
    simp only [Op.effect, Option.map_eq_some'] at h
    obtain ⟨l, -, hfp⟩ := h
    simp only [Prod.mk.injEq] at hfp
    obtain ⟨rfl, rfl⟩ := hfp
    exact ⟨le_refl _, id, by simp⟩
  | readTicks =>
    simp only [Op.effect, Option.some.injEq, Prod.mk.injEq] at h
    obtain ⟨rfl, rfl⟩ := h
    exact ⟨le_refl _, id, by simp⟩
  | readElapsed t0 =>
    simp only [Op.effect, Option.some.injEq, Prod.mk.injEq] at h
    obtain ⟨rfl, rfl⟩ := h
    exact ⟨le_refl _, id, by simp⟩
  | printStats =>
    simp only [Op.effect, Option.some.injEq, Prod.mk.injEq] at h
    obtain ⟨rfl, rfl⟩ := h
    exact ⟨le_refl _, id, by simp⟩

theorem run_ticks_mono (st : State) (ops : List Op) :
    st.ticks ≤ (run st ops).1.ticks := by
  induction ops generalizing st with
  | nil => exact le_refl _
  | cons op ops ih =>
    rw [run]
    cases heff : Op.effect op st with
    | none => exact le_refl _
    | some q =>
      obtain ⟨st', log⟩ := q
      exact le_trans (effect_step heff).1 (ih st')

theorem run_sorted (st : State) (ops : List Op)
    (h : SortedByWake st.sleep_list) : SortedByWake (run st ops).1.sleep_list := by
  induction ops generalizing st with
  | nil => exact h
  | cons op ops ih =>
    rw [run]
    cases heff : Op.effect op st with
    | none => exact h
    | some q =>
      obtain ⟨st', log⟩ := q
      exact ih st' ((effect_step heff).2.1 h)

theorem run_log_safe (st : State) (ops : List Op) :
    ∀ p ∈ (run st ops).2, p.2.wake_tick ≤ p.1 := by
  induction ops generalizing st with
  | nil => simp [run]
  | cons op ops ih =>
    rw [run]
    cases heff : Op.effect op st with
    | none => simp
    | some q =>
      obtain ⟨st', log⟩ := q
      intro p hp
      rcases List.mem_append.mp hp with hp | hp
      · exact (effect_step heff).2.2 p hp
      · exact ih st' p hp

/-- Claim C1: a thread calling `timer_sleep n` with positive `n` at tick `t0`
stores `wake_tick = t0 + n` (computed as `timer_ticks () + n`) in the sleep
list, and along any interleaving of operations the interrupt handler only
unblocks an entry whose stored `wake_tick` is at most the tick counter's
value at the moment of unblocking — so the thread is never unblocked before
the counter has reached `t0 + n`. -/
theorem timer_sleep_wake_lower_bound :
    (∀ (tid : Nat) (n : Int) (st : State), 0 < n →
      timer_sleep true tid n st =
        some ({ st with sleep_list :=
                  list_insert_ordered ⟨tid, timer_ticks st + n⟩ st.sleep_list },
              true)) ∧
    (∀ (st : State) (ops : List Op) (T : Int) (e : SleepEntry),
      (T, e) ∈ (run st ops).2 → e.wake_tick ≤ T) := by
  constructor
  · intro tid n st hn
    simp [timer_sleep, not_le.mpr hn, timer_ticks]
  · intro st ops T e h
    exact run_log_safe st ops (T, e) h

theorem timer_sleep_wake_lower_bound_witness :
    timer_sleep true 1 3 ⟨0, [], 0⟩ = some (⟨0, [⟨1, 3⟩], 0⟩, true) ∧
    (⟨1, 3⟩ : SleepEntry).wake_tick ≤ 3 :=
  ⟨timer_sleep_wake_lower_bound.1 1 3 ⟨0, [], 0⟩ (by decide),
   timer_sleep_wake_lower_bound.2 ⟨0, [], 0⟩
     [Op.sleep true 1 3, Op.interrupt, Op.interrupt, Op.interrupt] 3 ⟨1, 3⟩
     (by decide)⟩

/-- Claim C3: the sleep list stays sorted by ascending `wake_tick` across any
sequence of insertions and interrupt drains; `list_insert_ordered` is stable
for equal deadlines (the new entry goes after every queued entry with a
`wake_tick` less than or equal to its own and before every strictly larger
one), and a drain wakes only entries whose deadlines are at most those of
every entry left queued. -/
theorem sleep_list_sorted_stable :
    (∀ (e : SleepEntry) (l : List SleepEntry), SortedByWake l →
      SortedByWake (list_insert_ordered e l)) ∧
    (∀ (st : State) (ops : List Op), SortedByWake st.sleep_list →
      SortedByWake (run st ops).1.sleep_list) ∧
    (∀ (e : SleepEntry) (l : List SleepEntry), SortedByWake l →
      ∃ l₁ l₂, l = l₁ ++ l₂ ∧
        list_insert_ordered e l = l₁ ++ e :: l₂ ∧
        (∀ x ∈ l₁, x.wake_tick ≤ e.wake_tick) ∧
        (∀ x ∈ l₂, e.wake_tick < x.wake_tick)) ∧
    (∀ (now : Int) (l : List SleepEntry), SortedByWake l →
      ∀ x ∈ (drain now l).1, ∀ y ∈ (drain now l).2, x.wake_tick ≤ y.wake_tick) := by
  refine ⟨fun e l h => sorted_list_insert_ordered h, run_sorted,
    fun e l h => list_insert_ordered_stable h, ?_⟩
  intro now l h x hx y hy
  rw [drain_eq] at hx hy
  rw [SortedByWake] at h
  have hsplit := h
  rw [← List.takeWhile_append_dropWhile (fun e => decide (e.wake_tick ≤ now)) l,
    List.pairwise_append] at hsplit
  exact hsplit.2.2 x hx y hy

theorem sleep_list_sorted_stable_witness :
    SortedByWake (list_insert_ordered ⟨9, 5⟩ [⟨1, 5⟩, ⟨2, 7⟩]) ∧
    SortedByWake (run ⟨0, [⟨1, 5⟩, ⟨2, 7⟩], 0⟩ [Op.interrupt, Op.sleep true 3 1]).1.sleep_list ∧
    (∃ l₁ l₂, [⟨1, 5⟩, ⟨2, 7⟩] = l₁ ++ l₂ ∧
      list_insert_ordered ⟨9, 5⟩ [⟨1, 5⟩, ⟨2, 7⟩] = l₁ ++ ⟨9, 5⟩ :: l₂ ∧
      (∀ x ∈ l₁, x.wake_tick ≤ (⟨9, 5⟩ : SleepEntry).wake_tick) ∧
      (∀ x ∈ l₂, (⟨9, 5⟩ : SleepEntry).wake_tick < x.wake_tick)) ∧
    (∀ x ∈ (drain 5 [⟨1, 5⟩, ⟨2, 7⟩]).1, ∀ y ∈ (drain 5 [⟨1, 5⟩, ⟨2, 7⟩]).2,
      x.wake_tick ≤ y.wake_tick) :=
  ⟨sleep_list_sorted_stable.1 ⟨9, 5⟩ [⟨1, 5⟩, ⟨2, 7⟩] (by decide),
   sleep_list_sorted_stable.2.1 ⟨0, [⟨1, 5⟩, ⟨2, 7⟩], 0⟩ [Op.interrupt, Op.sleep true 3 1]
     (by decide),
   sleep_list_sorted_stable.2.2.1 ⟨9, 5⟩ [⟨1, 5⟩, ⟨2, 7⟩] (by decide),
   sleep_list_sorted_stable.2.2.2 5 [⟨1, 5⟩, ⟨2, 7⟩] (by decide)⟩

/-- Claim C4: one run of `timer_interrupt` increments the tick counter by
exactly 1, then issues the single `thread_tick` scheduler notification, and
only then unblocks the due sleepers, in that order; and no operation of the
module other than the interrupt handler ever changes the tick counter. -/
theorem timer_interrupt_step_order :
    (∀ st : State,
      (timer_interrupt st).1.ticks = st.ticks + 1 ∧
      (timer_interrupt st).2 =
        IntrEvent.tickIncr :: IntrEvent.schedTick ::
          (drain (st.ticks + 1) st.sleep_list).1.map fun e =>
            IntrEvent.unblock e.tid) ∧
    (∀ (op : Op) (st st' : State) (log : List (Int × SleepEntry)),
      op ≠ Op.interrupt → Op.effect op st = some (st', log) →
      st'.ticks = st.ticks) := by
  constructor
  · intro st
    exact ⟨rfl, rfl⟩
  · intro op st st' log hne h
    cases op with
    | sleep intrOn tid n =>
      simp only [Op.effect, Option.map_eq_some'] at h
      obtain ⟨⟨ps, pb⟩, hp, hfp⟩ := h
      simp only [Prod.mk.injEq] at hfp
      obtain ⟨rfl, -⟩ := hfp
      exact (timer_sleep_cases hp).1
    | interrupt => exact absurd rfl hne
    | msleep freq intrOn tid ms =>
      simp only [Op.effect, Option.map_eq_some'] at h
      obtain ⟨⟨ps, pa⟩, hp, hfp⟩ := h
      simp only [Prod.mk.injEq] at hfp
      obtain ⟨rfl, -⟩ := hfp
      exact (real_time_sleep_cases hp).1
    | usleep freq intrOn tid us =>
      simp only [Op.effect, Option.map_eq_some'] at h
      obtain ⟨⟨ps, pa⟩, hp, hfp⟩ := h
      simp only [Prod.mk.injEq] at hfp
      obtain ⟨rfl, -⟩ := hfp
      exact (real_time_sleep_cases hp).1
    | nsleep freq intrOn tid ns =>
      simp only [Op.effect, Option.map_eq_some'] at h
      obtain ⟨⟨ps, pa⟩, hp, hfp⟩ := h
      simp only [Prod.mk.injEq] at hfp
      obtain ⟨rfl, -⟩ := hfp
      exact (real_time_sleep_cases hp).1
    | calibrate tml =>
      simp only [Op.effect, Option.map_eq_some'] at h
      obtain ⟨l, -, hfp⟩ := h
      simp only [Prod.mk.injEq] at hfp
      obtain ⟨rfl, -⟩ := hfp
      rfl
    | readTicks =>
      simp only [Op.effect, Option.some.injEq, Prod.mk.injEq] at h
      obtain ⟨rfl, -⟩ := h
      rfl
    | readElapsed t0 =>
      simp only [Op.effect, Option.some.injEq, Prod.mk.injEq] at h
      obtain ⟨rfl, -⟩ := h
      rfl
    | printStats =>
      simp only [Op.effect, Option.some.injEq, Prod.mk.injEq] at h
      obtain ⟨rfl, -⟩ := h
      rfl

theorem timer_interrupt_step_order_witness :
    (⟨0, [⟨1, 3⟩], 0⟩ : State).ticks = (⟨0, [], 0⟩ : State).ticks :=
  timer_interrupt_step_order.2 (Op.sleep true 1 3) ⟨0, [], 0⟩ ⟨0, [⟨1, 3⟩], 0⟩ []
    (fun h => Op.noConfusion h) (by decide)

/-- Claim C8: the tick counter is monotone along every interleaving of the
module's operations: a later `timer_ticks` read is at least an earlier one,
and `timer_elapsed` of a previously read value is never negative. -/
theorem ticks_monotone :
    (∀ (st : State) (ops : List Op), timer_ticks st ≤ timer_ticks (run st ops).1) ∧
    (∀ (st : State) (p q : List Op),
      timer_ticks (run st p).1 ≤ timer_ticks (run (run st p).1 q).1 ∧
      0 ≤ timer_elapsed (run (run st p).1 q).1 (timer_ticks (run st p).1)) := by
  constructor
  · intro st ops
    exact run_ticks_mono st ops
  · intro st p q
    have h := run_ticks_mono (run st p).1 q
    refine ⟨h, ?_⟩
    simp only [timer_elapsed, timer_ticks] at *
    omega

/-- Claim C5: `timer_msleep`, `timer_usleep` and `timer_nsleep` convert their
duration to ticks as `duration * TIMER_FREQ / denom` with denominators 1000,
1000000 and 1000000000 respectively, using C integer division (truncation
toward zero, `Int.tdiv`), and delegate to `timer_sleep` exactly when the
resulting tick count is at least 1; `timer_msleep 1000` at `TIMER_FREQ =
100` sleeps 100 ticks, while `timer_usleep 1` at the same frequency rounds
to 0 ticks and takes the busy-wait fallback instead of blocking. -/
theorem real_time_conversion :
    (∀ (freq : Int) (intrOn : Bool) (tid : Nat) (ms : Int) (st : State),
      timer_msleep freq intrOn tid ms st = real_time_sleep freq intrOn tid ms 1000 st) ∧
    (∀ (freq : Int) (intrOn : Bool) (tid : Nat) (us : Int) (st : State),
      timer_usleep freq intrOn tid us st = real_time_sleep freq intrOn tid us 1000000 st) ∧
    (∀ (freq : Int) (intrOn : Bool) (tid : Nat) (ns : Int) (st : State),
      timer_nsleep freq intrOn tid ns st = real_time_sleep freq intrOn tid ns 1000000000 st) ∧
    (∀ (freq : Int) (tid : Nat) (num denom : Int) (st st' : State) (a : RTAction),
      real_time_sleep freq true tid num denom st = some (st', a) →
      (((∃ t, a = RTAction.slept t) ↔ 1 ≤ Int.tdiv (num * freq) denom) ∧
       ∀ t, a = RTAction.slept t → t = Int.tdiv (num * freq) denom)) ∧
    timer_msleep 100 true 7 1000 ⟨0, [], 0⟩ =
      some (⟨0, [⟨7, 100⟩], 0⟩, RTAction.slept 100) ∧
    timer_usleep 100 true 7 1 ⟨0, [], 0⟩ =
      some (⟨0, [], 0⟩, RTAction.busyWaited 0) := by
  refine ⟨fun _ _ _ _ _ => rfl, fun _ _ _ _ _ => rfl, fun _ _ _ _ _ => rfl,
    ?_, by decide, by decide⟩
  intro freq tid num denom st st' a h
  unfold real_time_sleep at h
  rw [if_neg (by simp)] at h
  by_cases ht : 0 < Int.tdiv (num * freq) denom
  · rw [if_pos ht, Option.map_eq_some'] at h
    obtain ⟨⟨ps, pb⟩, -, hfp⟩ := h
    simp only [Prod.mk.injEq] at hfp
    obtain ⟨-, rfl⟩ := hfp
    refine ⟨⟨fun _ => by omega, fun _ => ⟨_, rfl⟩⟩, ?_⟩
    intro t htt
    injection htt with hh
    exact hh.symm
  · rw [if_neg ht] at h
    split at h
    · simp only [Option.some.injEq, Prod.mk.injEq] at h
      obtain ⟨-, rfl⟩ := h
      refine ⟨⟨fun hex => ?_, fun hge => absurd hge (by omega)⟩, fun t htt => nomatch htt⟩
      obtain ⟨t, htt⟩ := hex
      exact nomatch htt
    · exact absurd h (by simp)

theorem real_time_conversion_witness :
    ((∃ t, RTAction.slept 100 = RTAction.slept t) ↔
      1 ≤ Int.tdiv ((1000 : Int) * 100) 1000) ∧
    (∀ t, RTAction.slept 100 = RTAction.slept t →
      t = Int.tdiv ((1000 : Int) * 100) 1000) :=
  real_time_conversion.2.2.2.1 100 7 1000 1000 ⟨0, [], 0⟩ ⟨0, [⟨7, 100⟩], 0⟩
    (RTAction.slept 100) (by decide)

/-- Claim C7 counterexample: calling `timer_msleep (-1)` at `TIMER_FREQ =
100` with `loops_per_tick = 1024` reaches the sub-tick path (the converted
tick count rounds to 0) and the busy-wait formula evaluates to `-100`, but
`busy_wait` then performs `0` loop iterations, not the formula's value —
the code does not busy-wait for exactly
`loops_per_tick * num / 1000 * TIMER_FREQ / (denom / 1000)` iterations on
this input. -/
theorem busy_wait_formula_counterexample :
    timer_msleep 100 true 7 (-1) ⟨0, [], 1024⟩ =
      some (⟨0, [], 1024⟩, RTAction.busyWaited (-100)) ∧
    busy_wait_iters (-100) = 0 ∧ ((busy_wait_iters (-100) : Int) ≠ -100) :=
  ⟨by decide, by decide, by decide⟩

/-- Claim C7 (amended): when the converted tick count rounds to 0 or below,
`real_time_sleep` requires `denom` to be an exact multiple of 1000 — a
violation is a fatal assertion failure (`none`), not a silent wrong delay —
and otherwise calls the busy-wait with a loop count of exactly
`loops_per_tick * num / 1000 * TIMER_FREQ / (denom / 1000)`, evaluated left
to right so the division by 1000 happens before the multiplication by
`TIMER_FREQ`; `busy_wait` performs exactly that many iterations when the
count is nonnegative, and zero iterations for a negative count (which
arises only from negative durations). -/
theorem real_time_busy_wait_formula :
    (∀ (freq : Int) (tid : Nat) (num denom : Int) (st : State),
      Int.tdiv (num * freq) denom ≤ 0 → Int.tmod denom 1000 = 0 →
      real_time_sleep freq true tid num denom st =
        some (st, RTAction.busyWaited
          (Int.tdiv (Int.tdiv ((st.loops_per_tick : Int) * num) 1000 * freq)
            (Int.tdiv denom 1000)))) ∧
    (∀ (freq : Int) (tid : Nat) (num denom : Int) (st : State),
      Int.tdiv (num * freq) denom ≤ 0 → Int.tmod denom 1000 ≠ 0 →
      real_time_sleep freq true tid num denom st = none) ∧
    (∀ loops : Int, 0 ≤ loops → (busy_wait_iters loops : Int) = loops) ∧
    (∀ loops : Int, loops < 0 → busy_wait_iters loops = 0) := by
  refine ⟨?_, ?_, ?_, ?_⟩
  · intro freq tid num denom st h1 h2
    unfold real_time_sleep
    rw [if_neg (by simp), if_neg (not_lt.mpr h1), if_pos h2]
  · intro freq tid num denom st h1 h2
    unfold real_time_sleep
    rw [if_neg (by simp), if_neg (not_lt.mpr h1), if_neg h2]
  · intro loops h
    exact Int.toNat_of_nonneg h
  · intro loops h
    rw [busy_wait_iters, Int.toNat_eq_zero]
    exact le_of_lt h

theorem real_time_busy_wait_formula_witness :
    real_time_sleep 100 true 7 1 1000000 ⟨0, [], 1024⟩ =
      some (⟨0, [], 1024⟩, RTAction.busyWaited 0) ∧
    real_time_sleep 100 true 7 0 1500 ⟨0, [], 0⟩ = none ∧
    (busy_wait_iters 5 : Int) = 5 ∧
    busy_wait_iters (-3) = 0 :=
  ⟨real_time_busy_wait_formula.1 100 7 1 1000000 ⟨0, [], 1024⟩ (by decide) (by decide),
   real_time_busy_wait_formula.2.1 100 7 0 1500 ⟨0, [], 0⟩ (by decide) (by decide),
   real_time_busy_wait_formula.2.2.1 5 (by decide),
   real_time_busy_wait_formula.2.2.2 (-3) (by decide)⟩

/-- Claim C10: the interrupts-enabled precondition of `timer_sleep` is only
enforced for positive durations — for `n ≤ 0` it returns before the
assertion, a safe no-op even with interrupts disabled — whereas
`timer_msleep`, `timer_usleep` and `timer_nsleep` assert interrupts are
enabled before examining the duration and therefore fail fatally on a
non-positive duration with interrupts disabled. -/
theorem intr_assert_order :
    (∀ (tid : Nat) (n : Int) (st : State), n ≤ 0 →
      timer_sleep false tid n st = some (st, false)) ∧
    (∀ (freq : Int) (tid : Nat) (ms : Int) (st : State), ms ≤ 0 →
      timer_msleep freq false tid ms st = none) ∧
    (∀ (freq : Int) (tid : Nat) (us : Int) (st : State), us ≤ 0 →
      timer_usleep freq false tid us st = none) ∧
    (∀ (freq : Int) (tid : Nat) (ns : Int) (st : State), ns ≤ 0 →
      timer_nsleep freq false tid ns st = none) :=
  ⟨fun tid n st h => by simp [timer_sleep, h],
   fun _ _ _ _ _ => rfl, fun _ _ _ _ _ => rfl, fun _ _ _ _ _ => rfl⟩

theorem intr_assert_order_witness :
    timer_sleep false 1 (-5) ⟨0, [], 0⟩ = some (⟨0, [], 0⟩, false) ∧
    timer_msleep 100 false 1 (-5) ⟨0, [], 0⟩ = none ∧
    timer_usleep 100 false 1 0 ⟨0, [], 0⟩ = none ∧
    timer_nsleep 100 false 1 (-7) ⟨0, [], 0⟩ = none :=
  ⟨intr_assert_order.1 1 (-5) ⟨0, [], 0⟩ (by decide),
   intr_assert_order.2.1 100 1 (-5) ⟨0, [], 0⟩ (by decide),
   intr_assert_order.2.2.1 100 1 0 ⟨0, [], 0⟩ (by decide),
   intr_assert_order.2.2.2 100 1 (-7) ⟨0, [], 0⟩ (by decide)⟩

theorem lor_pow_eq_add {p l : Nat} (h : 2 ^ (p + 1) ∣ l) :
    l ||| 2 ^ p = l + 2 ^ p := by
  obtain ⟨q, rfl⟩ := h
  exact (Nat.mul_add_lt_is_or (Nat.pow_lt_pow_succ one_lt_two) q).symm

theorem calibDouble_some_spec (tml : Nat → Bool) :
    ∀ (fuel k : Nat) (h : Nat), 10 ≤ k → k ≤ 31 →
      calibDouble tml fuel (2 ^ k) = some h →
      ∃ m, k ≤ m ∧ m ≤ 31 ∧ h = 2 ^ m ∧ tml (2 ^ (m + 1) % 2 ^ 32) = true ∧
        ∀ j, k ≤ j → j < m → tml (2 ^ (j + 1)) = false := by
  intro fuel
  induction fuel with
  | zero =>
    intro k h _ _ hc
    exact absurd hc (by simp [calibDouble])
  | succ fuel ih =>
    intro k h hk10 hk31 hc
    rw [calibDouble] at hc
    have hshift : (2 ^ k) <<< 1 = 2 ^ (k + 1) := by
      rw [Nat.shiftLeft_eq, pow_one, ← pow_succ]
    rw [hshift] at hc
    by_cases hk30 : k ≤ 30
    · have hmod : 2 ^ (k + 1) % 2 ^ 32 = 2 ^ (k + 1) :=
        Nat.mod_eq_of_lt (Nat.pow_lt_pow_right (by omega) (by omega))
      rw [hmod] at hc
      by_cases html : tml (2 ^ (k + 1)) = true
      · rw [if_pos html] at hc
        simp only [Option.some.injEq] at hc
        subst hc
        exact ⟨k, le_refl k, hk31, rfl, by rw [hmod]; exact html,
          fun j h1 h2 => absurd h2 (by omega)⟩
      · rw [if_neg html, if_neg (Nat.two_pow_pos (k + 1)).ne'] at hc
        obtain ⟨m, hm1, hm2, hm3, hm4, hm5⟩ := ih (k + 1) h (by omega) (by omega) hc
        refine ⟨m, by omega, hm2, hm3, hm4, ?_⟩
        intro j hj1 hj2
        rcases Nat.eq_or_lt_of_le hj1 with rfl | hj1'
        · simpa using html
        · exact hm5 j (by omega) hj2
    · have hk : k = 31 := by omega
      subst hk
      have hmod : (2 : Nat) ^ (31 + 1) % 2 ^ 32 = 0 := Nat.mod_self _
      rw [hmod] at hc
      by_cases html : tml 0 = true
      · rw [if_pos html] at hc
        simp only [Option.some.injEq] at hc
        subst hc
        exact ⟨31, le_refl _, le_refl _, rfl, by rw [hmod]; exact html,
          fun j h1 h2 => absurd h2 (by omega)⟩
      · rw [if_neg html, if_pos rfl] at hc
        exact absurd hc (by simp)

theorem calibDouble_none_spec (tml : Nat → Bool)
    (hall : ∀ j, 10 ≤ j → j ≤ 31 → tml (2 ^ (j + 1) % 2 ^ 32) = false) :
    ∀ (fuel k : Nat), 10 ≤ k → k ≤ 31 → 31 - k < fuel →
      calibDouble tml fuel (2 ^ k) = none := by
  intro fuel
  induction fuel with
  | zero =>
    intro k _ _ hf
    omega
  | succ fuel ih =>
    intro k hk10 hk31 hf
    rw [calibDouble]
    have hshift : (2 ^ k) <<< 1 = 2 ^ (k + 1) := by
      rw [Nat.shiftLeft_eq, pow_one, ← pow_succ]
    rw [hshift]
    by_cases hk30 : k ≤ 30
    · have hmod : 2 ^ (k + 1) % 2 ^ 32 = 2 ^ (k + 1) :=
        Nat.mod_eq_of_lt (Nat.pow_lt_pow_right (by omega) (by omega))
      have hf1 : tml (2 ^ (k + 1)) = false := by
        have h := hall k hk10 hk31
        rwa [hmod] at h
      rw [hmod, if_neg (by simp [hf1]), if_neg (Nat.two_pow_pos (k + 1)).ne']
      exact ih (k + 1) (by omega) (by omega) (by omega)
    · have hk : k = 31 := by omega
      subst hk
      have hmod : (2 : Nat) ^ (31 + 1) % 2 ^ 32 = 0 := Nat.mod_self _
      have hf1 : tml (2 ^ (31 + 1) % 2 ^ 32) = false := hall 31 (by omega) (le_refl _)
      rw [hmod] at hf1
      rw [hmod, if_neg (by simp [hf1]), if_pos rfl]

theorem calibRefine_go (tml : Nat → Bool) (k : Nat) (hk : 10 ≤ k) :
    ∀ (s : Nat), s ≤ 9 → ∀ (fuel : Nat), s < fuel → ∀ (l : Nat),
      2 ^ (k - 10 + s + 1) ∣ l →
      calibRefine tml (2 ^ k) (2 ^ (k - 10)) fuel (2 ^ (k - 10 + s)) l =
        l + ∑ i in Finset.Icc (10 - s) 9,
          (if tml (2 ^ k ||| 2 ^ (k - i)) then 0 else 2 ^ (k - i)) := by
  intro s
  induction s with
  | zero =>
    intro _ fuel hf l _
    cases fuel with
    | zero => omega
    | succ fuel =>
      rw [calibRefine, if_pos (by rw [Nat.add_zero]), Finset.Icc_eq_empty (by omega),
        Finset.sum_empty, Nat.add_zero]
  | succ s ihs =>
    intro hs fuel hf l hdvd
    cases fuel with
    | zero => omega
    | succ fuel =>
      have hne : ¬ (2 ^ (k - 10 + (s + 1)) = 2 ^ (k - 10)) := by
        intro he
        have := Nat.pow_right_injective (le_refl 2) he
        omega
      have hshift : (2 ^ (k - 10 + (s + 1))) >>> 1 = 2 ^ (k - 10 + s) := by
        rw [Nat.shiftRight_eq_div_pow, pow_one,
          show k - 10 + (s + 1) = (k - 10 + s) + 1 by omega, pow_succ,
          Nat.mul_div_cancel _ (by omega)]
      have hidx : k - (9 - s) = k - 10 + (s + 1) := by omega
      have hlordvd : 2 ^ (k - 10 + s + 1) ∣ l :=
        dvd_trans (pow_dvd_pow 2 (by omega)) hdvd
      have hlor : l ||| 2 ^ (k - 10 + (s + 1)) = l + 2 ^ (k - 10 + (s + 1)) :=
        lor_pow_eq_add hdvd
      have hins : Finset.Icc (10 - (s + 1)) 9 = insert (9 - s) (Finset.Icc (10 - s) 9) := by
        ext x
        simp only [Finset.mem_Icc, Finset.mem_insert]
        omega
      have hnm : (9 - s) ∉ Finset.Icc (10 - s) 9 := by
        simp only [Finset.mem_Icc]
        omega
      rw [calibRefine, if_neg hne, hshift]
      by_cases html : tml (2 ^ k ||| 2 ^ (k - 10 + (s + 1)))
      · rw [if_pos html]
        rw [ihs (by omega) fuel (by omega) l (by
          rw [show k - 10 + s + 1 = k - 10 + (s + 1) by omega]
          exact dvd_trans (pow_dvd_pow 2 (by omega)) hdvd)]
        rw [hins, Finset.sum_insert hnm, hidx, if_pos html]
        omega
      · rw [if_neg html, hlor]
        rw [ihs (by omega) fuel (by omega) (l + 2 ^ (k - 10 + (s + 1))) (by
          refine dvd_add ?_ ?_
          · rw [show k - 10 + s + 1 = k - 10 + (s + 1) by omega] at hlordvd ⊢
            exact hlordvd
          · exact pow_dvd_pow 2 (by omega))]
        rw [hins, Finset.sum_insert hnm, hidx, if_neg html]
        omega

/-- Claim C9: whenever `timer_calibrate` completes without tripping the
overflow assertion, its doubling phase went from `2 ^ 10` to some power of
two `2 ^ k` by doubling exactly while `too_many_loops` of the doubled value
was false, and the refinement phase then added, for each bit position from
`high_bit >> 1` down to but excluding `high_bit >> 10`, exactly the bits
`test_bit` for which `too_many_loops (high_bit | test_bit)` is false — the
final value is the leading power of two plus the passing tested bits.  If
the doubled value always fails (wrapping `loops_per_tick` to zero), the
`ASSERT` fires. -/
theorem timer_calibrate_spec :
    (∀ (tml : Nat → Bool) (r : Nat), timer_calibrate tml = some r →
      ∃ k, 10 ≤ k ∧ k ≤ 31 ∧
        tml (2 ^ (k + 1) % 2 ^ 32) = true ∧
        (∀ j, 10 ≤ j → j < k → tml (2 ^ (j + 1)) = false) ∧
        r = 2 ^ k + ∑ i in Finset.Icc 1 9,
          (if tml (2 ^ k + 2 ^ (k - i)) then 0 else 2 ^ (k - i))) ∧
    (∀ tml : Nat → Bool,
      (∀ j, 10 ≤ j → j ≤ 31 → tml (2 ^ (j + 1) % 2 ^ 32) = false) →
      timer_calibrate tml = none) := by
  constructor
  · intro tml r h
    unfold timer_calibrate at h
    rw [Option.map_eq_some'] at h
    obtain ⟨hb, hdc, hr⟩ := h
    rw [show (1 : Nat) <<< 10 = 2 ^ 10 by decide] at hdc
    obtain ⟨m, hm1, hm2, hbeq, htrue, hfalse⟩ :=
      calibDouble_some_spec tml 32 10 hb (le_refl _) (by omega) hdc
    subst hbeq
    refine ⟨m, by omega, hm2, htrue, fun j hj1 hj2 => hfalse j (by omega) hj2, ?_⟩
    rw [← hr]
    have hsr10 : (2 : Nat) ^ m >>> 10 = 2 ^ (m - 10) := by
      rw [Nat.shiftRight_eq_div_pow, Nat.pow_div (by omega) (by omega)]
    have hsr1 : (2 : Nat) ^ m >>> 1 = 2 ^ (m - 10 + 9) := by
      rw [Nat.shiftRight_eq_div_pow, Nat.pow_div (by omega) (by omega),
        show m - 1 = m - 10 + 9 by omega]
    rw [hsr10, hsr1]
    rw [calibRefine_go tml m (by omega) 9 (le_refl _) 32 (by omega) (2 ^ m) (by
      rw [show m - 10 + 9 + 1 = m by omega])]
    rw [show (10 : Nat) - 9 = 1 by omega]
    congr 1
    refine Finset.sum_congr rfl ?_
    intro i hi
    rw [Finset.mem_Icc] at hi
    rw [lor_pow_eq_add (pow_dvd_pow 2 (by omega))]
  · intro tml hall
    unfold timer_calibrate
    rw [show (1 : Nat) <<< 10 = 2 ^ 10 by decide,
      calibDouble_none_spec tml hall 32 10 (le_refl _) (by omega) (by omega)]
    rfl

theorem timer_calibrate_spec_witness :
    (∃ k, 10 ≤ k ∧ k ≤ 31 ∧
      (fun n => decide (5000 < n)) (2 ^ (k + 1) % 2 ^ 32) = true ∧
      (∀ j, 10 ≤ j → j < k → (fun n => decide (5000 < n)) (2 ^ (j + 1)) = false) ∧
      5112 = 2 ^ k + ∑ i in Finset.Icc 1 9,
        (if (fun n => decide (5000 < n)) (2 ^ k + 2 ^ (k - i)) then 0
         else 2 ^ (k - i))) ∧
    timer_calibrate (fun _ => false) = none :=
  ⟨timer_calibrate_spec.1 (fun n => decide (5000 < n)) 5112 (by decide),
   timer_calibrate_spec.2 (fun _ => false) (fun _ _ _ => rfl)⟩

end Timer
